import Mathlib

/-!
# Verification of the dictionary rendering engine and favorites store

This file gives a shallow embedding, in Lean, of the rendering engine of a
dictionary lookup extension (grouping of lexical entries by part of speech,
pronunciation tables, the two-branch forms renderer, the recursive sense
outline, and the final postprocessing pass) together with the favorites
store's pure update logic, and proves or refutes a collection of stated
properties about them.

JS strings are modelled as Lean `String` (a list of characters); the JS
string primitives used by the code (`includes`, `toLowerCase`, `trim`,
`repeat`, `join`, `replaceAll`, first-occurrence `replace`) are modelled
explicitly below as character-list functions.  JS plain objects used as
string-keyed dictionaries (`Record<string, ...>`) are modelled as
association lists in insertion order, which is exactly the enumeration
order of `Object.entries` for the non-numeric keys the code uses.
-/

set_option autoImplicit false

namespace DictSpec

/-! ## String and list helpers (models of the JS primitives) -/

/-- Concatenation of the lists produced by `f` over a list. -/
def concatMapL {α β : Type} (f : α → List β) : List α → List β
  | [] => []
  | a :: rest => f a ++ concatMapL f rest

/-- Concatenation of a list of strings (models repeated `md += ...`). -/
def concatStr : List String → String
  | [] => ""
  | s :: rest => s ++ concatStr rest

/-- JS `Array.prototype.join(sep)`. -/
def joinSep (sep : String) : List String → String
  | [] => ""
  | [a] => a
  | a :: rest => a ++ sep ++ joinSep sep rest

/-- JS `String.prototype.repeat`. -/
def repeatStr (s : String) : Nat → String
  | 0 => ""
  | n + 1 => s ++ repeatStr s n

/-- Does the character list start with `pat`? -/
def startsWithL : List Char → List Char → Bool
  | [], _ => true
  | _ :: _, [] => false
  | p :: ps, c :: cs => p == c && startsWithL ps cs

/-- Substring containment on character lists, case-sensitive. -/
def hasSubL (pat : List Char) : List Char → Bool
  | [] => startsWithL pat []
  | c :: rest => startsWithL pat (c :: rest) || hasSubL pat rest

/-- JS `String.prototype.includes(pat)`: case-sensitive substring test. -/
def containsSub (s pat : String) : Bool := hasSubL pat.data s.data

/-- JS `String.prototype.toLowerCase` (modelled per character). -/
def toLowerStr (s : String) : String := ⟨s.data.map Char.toLower⟩

/-- The heading capitalisation `word.slice(0, 1).toUpperCase() + word.slice(1)`. -/
def capitalizeFirst (s : String) : String :=
  match s.data with
  | [] => ""
  | c :: rest => ⟨Char.toUpper c :: rest⟩

/-- JS `url.replaceAll(' ', '%20')`. -/
def escapeSpaces (s : String) : String :=
  ⟨concatMapL (fun c => if c = ' ' then ['%', '2', '0'] else [c]) s.data⟩

/-- JS `String.prototype.trim`: drop whitespace at both ends. -/
def trimChars (l : List Char) : List Char :=
  ((l.dropWhile Char.isWhitespace).reverse.dropWhile Char.isWhitespace).reverse

/-- JS `String.prototype.trim` on strings. -/
def trimStr (s : String) : String := ⟨trimChars s.data⟩

/-- JS `String.prototype.replace("  ", " ")`: replaces only the first
occurrence of a double space. -/
def replaceFirstDoubleSpace : List Char → List Char
  | ' ' :: ' ' :: rest => ' ' :: rest
  | c :: rest => c :: replaceFirstDoubleSpace rest
  | [] => []

/-- One pass of JS `String.prototype.replaceAll("..", ".")`: replaces the
leftmost occurrence and continues after the replacement (non-overlapping). -/
def collapseAux : List Char → List Char
  | [] => []
  | [c] => [c]
  | c :: d :: rest =>
    if c = '.' ∧ d = '.' then '.' :: collapseAux rest
    else c :: collapseAux (d :: rest)

/-- `md.replaceAll("..", ".")` as used in the final postprocessing pass. -/
def collapseDots (s : String) : String := ⟨collapseAux s.data⟩

/-- First-occurrence deduplication of the entries of a list that are not
already among `seen`; `seen` grows with every emitted entry.  This models
both the `if (!rows.includes(row)) { ...; rows.push(row) }` pattern of the
forms renderer and first-encounter key ordering. -/
def dedupSeen : List String → List String → List String
  | [], _ => []
  | x :: rest, seen => if x ∈ seen then dedupSeen rest seen else x :: dedupSeen rest (seen ++ [x])

/-- First-occurrence deduplication of a list of strings. -/
def firstDedup (l : List String) : List String := dedupSeen l []

/-- Number of occurrences of `x` in a list of strings. -/
def countL (x : String) : List String → Nat
  | [] => 0
  | y :: rest => (if y = x then 1 else 0) + countL x rest

/-! ### Basic string lemmas -/

theorem strData_append (s t : String) : (s ++ t).data = s.data ++ t.data := rfl

theorem strAppend_assoc (a b c : String) : a ++ b ++ c = a ++ (b ++ c) :=
  String.ext (by simp [strData_append])

theorem strAppend_empty (s : String) : s ++ "" = s :=
  String.ext (by simp [strData_append])

theorem strEmpty_append (s : String) : "" ++ s = s :=
  String.ext (by simp [strData_append])

theorem concatStr_append (l₁ l₂ : List String) :
    concatStr (l₁ ++ l₂) = concatStr l₁ ++ concatStr l₂ := by
  induction l₁ with
  | nil => simp [concatStr, strEmpty_append]
  | cons s rest ih => simp [concatStr, ih, strAppend_assoc]

theorem concatMapL_append {α β : Type} (f : α → List β) (l₁ l₂ : List α) :
    concatMapL f (l₁ ++ l₂) = concatMapL f l₁ ++ concatMapL f l₂ := by
  induction l₁ with
  | nil => simp [concatMapL]
  | cons a rest ih => simp [concatMapL, ih]

/-! ## Data model (the `DictionaryEntry` schema) -/

/-- A language reference `{ code, name }`. -/
structure LangRef where
  code : String
  name : String
deriving DecidableEq

/-- A pronunciation record `{ type, text, tags }`. -/
structure Pronunciation where
  type : String
  text : String
  tags : List String
deriving DecidableEq

/-- An inflected form `{ word, tags }`. -/
structure Form where
  word : String
  tags : List String
deriving DecidableEq

/-- A quotation `{ text, reference }` inside a sense. -/
structure QuoteT where
  text : String
  reference : String
deriving DecidableEq

/-- A recursive sense: definition, tags, examples, quotes, synonyms,
antonyms, translations and nested subsenses. -/
inductive Sense where
  | mk (definition : String) (tags : List String) (examples : List String)
      (quotes : List QuoteT) (synonyms : List String) (antonyms : List String)
      (translations : List String) (subsenses : List Sense)

def Sense.definition : Sense → String
  | ⟨d, _, _, _, _, _, _, _⟩ => d

def Sense.subsenses : Sense → List Sense
  | ⟨_, _, _, _, _, _, _, ss⟩ => ss

/-- One element of `DictionaryEntry.entries`. -/
structure LanguageEntry where
  language : LangRef
  partOfSpeech : String
  pronunciations : List Pronunciation
  forms : List Form
  senses : List Sense

/-- The `source` citation of a `DictionaryEntry`. -/
structure SourceRef where
  url : String
  licenseName : String
  licenseUrl : String

/-- The top-level `DictionaryEntry` record. -/
structure DictionaryEntry where
  word : String
  entries : List LanguageEntry
  source : SourceRef

/-- One value of the transient `groupedEntries` record built by
`renderMarkdown`, keyed by part of speech. -/
structure GroupedEntry where
  language : LangRef
  partOfSpeech : String
  pronunciations : List Pronunciation
  forms : List Form
  senses : List Sense

/-! ## Entry aggregation (`renderMarkdown`'s grouping loop)

JS source:
`if (!groupedEntries[e.partOfSpeech]) groupedEntries[e.partOfSpeech] = {...};`
then `push(...)` of the entry's pronunciations, forms and senses.  A fresh
key is appended at the end of the record (insertion order); an existing key
has the entry's lists appended to its accumulated lists. -/

/-- Merge one `LanguageEntry` into the grouped association list: append its
lists to the group with the same part of speech, or append a fresh group at
the end. -/
def updateGroup (e : LanguageEntry) : List GroupedEntry → List GroupedEntry
  | [] => [⟨e.language, e.partOfSpeech, e.pronunciations, e.forms, e.senses⟩]
  | g :: rest =>
    if g.partOfSpeech = e.partOfSpeech then
      ⟨g.language, g.partOfSpeech, g.pronunciations ++ e.pronunciations,
        g.forms ++ e.forms, g.senses ++ e.senses⟩ :: rest
    else
      g :: updateGroup e rest

/-- `entry.entries.forEach(...)` building `groupedEntries`. -/
def groupEntries (es : List LanguageEntry) : List GroupedEntry :=
  es.foldl (fun acc e => updateGroup e acc) []

/-! ## Pronunciation grouping (`renderPronunciations`) -/

/-- One bucket of the pronunciation table: the dialect/region key, the
`type` recorded when the bucket was created, and the accumulated texts. -/
structure PronGroup where
  region : String
  type : String
  texts : List String
deriving DecidableEq

/-- Add one phonetic `text` under the bucket `tag`; a missing bucket is
created at the end carrying the contributing pronunciation's `type`. -/
def insertPronTag (tag ty text : String) : List PronGroup → List PronGroup
  | [] => [⟨tag, ty, [text]⟩]
  | g :: rest =>
    if g.region = tag then
      ⟨g.region, g.type, g.texts ++ [text]⟩ :: rest
    else
      g :: insertPronTag tag ty text rest

/-- The bucket keys a pronunciation is filed under: its tags, or the
sentinel `"-"` when it has none. -/
def effTags (p : Pronunciation) : List String :=
  if p.tags.isEmpty then ["-"] else p.tags

/-- Process one pronunciation (the body of `pronunciations.forEach`). -/
def stepPron (m : List PronGroup) (p : Pronunciation) : List PronGroup :=
  (effTags p).foldl (fun m tag => insertPronTag tag p.type p.text m) m

/-- The `grouped` record of `renderPronunciations`. -/
def groupProns (ps : List Pronunciation) : List PronGroup :=
  ps.foldl stepPron []

/-- One rendered row of the pronunciation table. -/
def pronRow (g : PronGroup) : String :=
  "| " ++ (g.region ++ (" | " ++ (joinSep ", " g.texts ++ (" | " ++ (g.type ++ " |\n")))))

/-- `renderPronunciations`: a markdown table of pronunciations grouped by
region, or the empty string on empty input. -/
def renderPronunciations (ps : List Pronunciation) : String :=
  if ps.isEmpty then ""
  else
    let g := groupProns ps
    if g.isEmpty then ""
    else
      "| Dialect | Pronunciation | Phonetic System | \n|---|---|---|\n" ++
        (concatStr (g.map pronRow) ++ "\n\n")

/-! ## Forms rendering (`renderForms`) -/

/-- Tags that invalidate a form in both branches. -/
def invalidTags : List String := ["inflection-template", "table-tags", "class"]

/-- Languages routed through the complex-conjugation branch. -/
def complexConjugationsLanguages : List String :=
  ["ca", "cs", "fr", "de", "el", "hu", "it", "la", "pt", "ro", "ru", "sh", "es", "nl"]

/-- Non-finite mood tags. -/
def nonfiniteMoods : List String := ["gerund", "participle", "infinitive"]

/-- Finite mood vocabulary, in priority order. -/
def moodsVocab : List String :=
  ["indicative", "subjunctive-i", "subjunctive-ii", "subjunctive", "imperative"]

/-- Tense vocabulary, in priority order. -/
def tensesVocab : List String :=
  ["future-i", "future-ii", "present", "imperfect", "preterite", "future",
    "conditional", "perfect", "pluperfect", "past perfect", "future perfect",
    "conditional perfect"]

/-- Grammatical-number vocabulary. -/
def numbersVocab : List String := ["singular", "plural"]

/-- Grammatical-person vocabulary. -/
def personsVocab : List String := ["first-person", "second-person", "third-person"]

/-- The complex-branch form filter (the three early `return`s):
keep a form iff it has at least one tag, no invalid tag, and its word does
not contain (case-sensitively — the vocabulary names are already lowercase,
so `t.toLowerCase()` is the identity on them) any tense, number or person
vocabulary name. -/
def keepFormComplex (f : Form) : Bool :=
  !f.tags.isEmpty &&
  !(f.tags.any (fun t => decide (t ∈ invalidTags))) &&
  !(tensesVocab.any (fun t => containsSub f.word (toLowerStr t))) &&
  !(numbersVocab.any (fun n => containsSub f.word (toLowerStr n))) &&
  !(personsVocab.any (fun p => containsSub f.word (toLowerStr p)))

/-- The mood a form is classified under:
`moods.find(m => f.tags.includes(m)) || (nonfiniteMoods.find(...) ? "non-finite" : "indicative")`. -/
def moodOf (f : Form) : String :=
  match moodsVocab.find? (fun m => decide (m ∈ f.tags)) with
  | some m => m
  | none => if nonfiniteMoods.any (fun nm => decide (nm ∈ f.tags)) then "non-finite" else "indicative"

/-- `tenses.find(t => f.tags.includes(t)) || ""`. -/
def tenseOf (f : Form) : String :=
  match tensesVocab.find? (fun t => decide (t ∈ f.tags)) with
  | some t => t
  | none => ""

/-- `numbers.find(n => f.tags.includes(n)) || ""`. -/
def numberOf (f : Form) : String :=
  match numbersVocab.find? (fun n => decide (n ∈ f.tags)) with
  | some n => n
  | none => ""

/-- `persons.find(p => f.tags.includes(p)) || ""`. -/
def personOf (f : Form) : String :=
  match personsVocab.find? (fun p => decide (p ∈ f.tags)) with
  | some p => p
  | none => ""

/-- person → forms, in insertion order. -/
abbrev PersonMap := List (String × List Form)
/-- number → person → forms. -/
abbrev NumberMap := List (String × PersonMap)
/-- tense → number → person → forms. -/
abbrev TenseMap := List (String × NumberMap)
/-- mood → tense → number → person → forms. -/
abbrev MoodMap := List (String × TenseMap)

/-- Association-list update: apply `f` to the value stored at `k`
(defaulting to `d` for a fresh key, which is appended at the end). -/
def updateAssoc {β : Type} (k : String) (d : β) (f : β → β) :
    List (String × β) → List (String × β)
  | [] => [(k, f d)]
  | (k', v) :: rest =>
    if k' = k then (k', f v) :: rest else (k', v) :: updateAssoc k d f rest

/-- `grouped[mood][tense][number][person].push(f)` with on-demand creation
of the intermediate objects. -/
def insertForm (m : MoodMap) (f : Form) : MoodMap :=
  updateAssoc (moodOf f) [] (fun tm =>
    updateAssoc (tenseOf f) [] (fun nm =>
      updateAssoc (numberOf f) [] (fun pm =>
        updateAssoc (personOf f) [] (fun l => l ++ [f]) pm) nm) tm) m

/-- The `grouped` 4-level record of the complex branch. -/
def buildGrouped (forms : List Form) : MoodMap :=
  forms.foldl (fun acc f => if keepFormComplex f then insertForm acc f else acc) []

/-- A non-finite table row `| tags-joined | word |`. -/
def nfRowOf (f : Form) : String :=
  "| " ++ joinSep ", " f.tags ++ " | " ++ f.word ++ " |\n"

/-- A finite table row `| person number | word |`. -/
def finRowOf (person number : String) (f : Form) : String :=
  "| " ++ person ++ " " ++ number ++ " | " ++ f.word ++ " |\n"

/-- The row strings of one tense bucket of a non-finite mood, in iteration
order of the nested number/person objects. -/
def bucketRowsNF (nm : NumberMap) : List String :=
  concatMapL (fun np => concatMapL (fun pp => pp.2.map nfRowOf) np.2) nm

/-- The row strings of one tense bucket of a finite mood. -/
def bucketRowsFin (nm : NumberMap) : List String :=
  concatMapL (fun np => concatMapL (fun pp => pp.2.map (finRowOf pp.1 np.1)) np.2) nm

/-- The output of one `(tense, numbersObj)` iteration of a mood group.
Duplicate rows are suppressed within the bucket; the duplicate tracker is
reset (`rows.length = 0`) after every bucket, so deduplication is scoped to
a single bucket. -/
def renderTenseEntry (mood : String) (tn : String × NumberMap) : String :=
  if mood = "non-finite" then
    if tn.1 ≠ "" ∧ mood ≠ "imperative" then ""
    else concatStr (firstDedup (bucketRowsNF tn.2))
  else
    if tn.1 = "" ∧ mood ≠ "imperative" then ""
    else
      "##### Tense: " ++
        ((if tn.1 ≠ "" ∨ mood = "imperative" then "present" else "") ++
          ("\n" ++ ("| Person & Number | Form |\n|---|---|\n" ++
            concatStr (firstDedup (bucketRowsFin tn.2)))))

/-- The output of one `(mood, tensesObj)` iteration. -/
def renderMoodEntry (me : String × TenseMap) : String :=
  "#### " ++
    ((if me.1 = "non-finite" then "Non-finite forms" else "Mood: " ++ me.1) ++
      ("\n" ++
        ((if me.1 = "non-finite" then "| Name | Form |\n|---|---|\n" else "") ++
          (concatStr (me.2.map (renderTenseEntry me.1)) ++ "\n"))))

/-- The complex-branch body of the forms section. -/
def complexBody (forms : List Form) : String :=
  concatStr ((buildGrouped forms).map renderMoodEntry)

/-- One bullet of the simple branch; forms carrying an invalid tag are
skipped. -/
def simpleBullet (f : Form) : String :=
  if f.tags.any (fun t => decide (t ∈ invalidTags)) then ""
  else "- " ++ (f.word ++ (" (" ++ (joinSep ", " f.tags ++ ")\n")))

/-- The simple-branch body of the forms section. -/
def simpleBody : List Form → String
  | [] => ""
  | f :: rest => simpleBullet f ++ simpleBody rest

/-- `renderForms`: empty input yields the empty string; otherwise the
`### Forms` heading followed by the branch selected by the language code,
then a blank-line tail. -/
def renderForms (language : String) (forms : List Form) : String :=
  if forms.isEmpty then ""
  else
    "### Forms\n" ++
      ((if decide (language ∈ complexConjugationsLanguages) then complexBody forms
        else simpleBody forms) ++ "\n\n")

/-! ## Sense rendering (`renderSenses`) -/

/-- The `- **Quote k:** text - _reference_` lines, `k` counting from 1. -/
def quotesBlockAux (pre : String) : List QuoteT → Nat → String
  | [], _ => ""
  | q :: rest, n =>
    pre ++ "- **Quote " ++ toString n ++ ":** " ++ q.text ++ " - _" ++ q.reference ++ "_\n" ++
      quotesBlockAux pre rest (n + 1)

/-- All quote lines of one sense, indented by `pre`. -/
def quotesBlock (pre : String) (qs : List QuoteT) : String :=
  quotesBlockAux pre qs 1

/-- `renderSubsenses`: each call numbers its own list from 1; `indent` is
the number of 4-space units before the item number; field order inside a
subsense is synonyms, antonyms, examples, quotes; a trailing newline
follows the last item of every level. -/
def renderSubsList : List Sense → Nat → Nat → String
  | [], _, _ => ""
  | ⟨d, _tags, ex, qs, syn, ant, _tr, subs⟩ :: rest, indent, n =>
    repeatStr "    " indent ++ toString n ++ ". " ++ d ++ "\n" ++
      (if syn.isEmpty then "" else
        repeatStr "    " indent ++ "    - **Synonyms:** " ++ joinSep ", " syn ++ "\n") ++
      (if ant.isEmpty then "" else
        repeatStr "    " indent ++ "    - **Antonyms:** " ++ joinSep ", " ant ++ "\n") ++
      (if ex.isEmpty then "" else
        repeatStr "    " indent ++ "    - **Examples:** " ++ joinSep "; " ex ++ "\n") ++
      quotesBlock (repeatStr "    " indent ++ "    ") qs ++
      (if subs.isEmpty then "" else renderSubsList subs (indent + 1) 1) ++
      (if rest.isEmpty then "\n" else "") ++
      renderSubsList rest indent (n + 1)

/-- The top-level sense loop: numbering from 1, field order examples,
quotes, synonyms, antonyms, then subsenses starting at indent level 2, and
a final double newline after the last sense. -/
def renderTopSenses : List Sense → Nat → String
  | [], _ => ""
  | ⟨d, _tags, ex, qs, syn, ant, _tr, subs⟩ :: rest, n =>
    toString n ++ ". " ++ d ++ "\n" ++
      (if ex.isEmpty then "" else "    - **Examples:** " ++ joinSep "; " ex ++ "\n") ++
      quotesBlock "    " qs ++
      (if syn.isEmpty then "" else "    - **Synonyms:** " ++ joinSep ", " syn ++ "\n") ++
      (if ant.isEmpty then "" else "    - **Antonyms:** " ++ joinSep ", " ant ++ "\n") ++
      (if subs.isEmpty then "" else renderSubsList subs 2 1) ++
      (if rest.isEmpty then "\n\n" else "") ++
      renderTopSenses rest (n + 1)

/-- `renderSenses`: empty input yields the empty string, otherwise the
`### Senses` heading followed by the numbered outline. -/
def renderSenses (senses : List Sense) : String :=
  if senses.isEmpty then "" else "### Senses\n" ++ renderTopSenses senses 1

/-! ## `renderMarkdown`: the full document -/

/-- The per-group section: capitalized part-of-speech heading, then
pronunciations, senses and forms. -/
def renderSection (language : String) (g : GroupedEntry) : String :=
  "## " ++ (capitalizeFirst g.partOfSpeech ++ ("\n" ++
    (renderPronunciations g.pronunciations ++
      (renderSenses g.senses ++ renderForms language g.forms))))

/-- The document header: capitalized headword title and the source link
line (spaces of the url escaped as `%20`). -/
def headerOf (word url : String) : String :=
  "# " ++ (capitalizeFirst word ++ ("\n" ++
    ("Source: [" ++ (escapeSpaces url ++ ("](" ++ (escapeSpaces url ++ ")\n\n"))))))

/-- `renderMarkdown`: header, then one section per part-of-speech group in
first-encounter order, then the double-period collapse pass. -/
def renderMarkdown (language : String) (entry : DictionaryEntry) : String :=
  collapseDots
    (headerOf entry.word entry.source.url ++
      concatStr ((groupEntries entry.entries).map (renderSection language)))

/-! ## Favorites store (`Favorite`)

`getEntries`/`setItem` are external storage; `addEntry` is modelled as a
pure function from the stored list (and the call arguments) to the new
stored list.  The JS array sort is by `a.word.localeCompare(b.word)` and is
stable; `localeCompare` is locale-dependent, so it is modelled here as a
stable insertion sort on a code-point word order — the properties proved
below only depend on stability and on equal words comparing equal, which
any locale collation satisfies. -/

/-- A stored favorites record. -/
structure FavoriteEntry where
  language : String
  word : String
  markdown : String
  url : String
deriving DecidableEq

/-- `Favorite.formatText`: trim, lowercase, replace the first double
space. -/
def formatText (t : String) : String :=
  ⟨replaceFirstDoubleSpace (toLowerStr (trimStr t)).data⟩

/-- Code-point order on words (model of the `localeCompare` comparator,
used only through stability and reflexivity on equal words). -/
def wordLt (a b : FavoriteEntry) : Bool :=
  hasLtChars a.word.data b.word.data
where
  hasLtChars : List Char → List Char → Bool
    | [], [] => false
    | [], _ :: _ => true
    | _ :: _, [] => false
    | c :: cs, d :: ds => if c < d then true else if d < c then false else hasLtChars cs ds

/-- Stable insertion into a word-sorted list: an entry goes after every
entry whose word is not strictly greater. -/
def insertByWord (x : FavoriteEntry) : List FavoriteEntry → List FavoriteEntry
  | [] => [x]
  | y :: ys => if wordLt x y then x :: y :: ys else y :: insertByWord x ys

/-- Stable sort by word (model of `favorites.sort((a, b) => a.word.localeCompare(b.word))`). -/
def sortByWord : List FavoriteEntry → List FavoriteEntry
  | [] => []
  | x :: xs => insertByWord x (sortByWord xs)

/-- `Favorite.addEntry` on the stored list: the existence check compares
the *raw* `language`/`word` arguments against the stored fields; only when
no exact match is found is the *formatted* entry appended and the list
re-sorted. -/
def addEntry (favorites : List FavoriteEntry) (language word markdown url : String) :
    List FavoriteEntry :=
  if favorites.any (fun fav => decide (fav.language = language ∧ fav.word = word)) then favorites
  else sortByWord (favorites ++ [⟨formatText language, formatText word, markdown, url⟩])

/-! ## Collapse-pass lemmas (for C7) -/

theorem collapseAux_two (c d : Char) (rest : List Char) :
    collapseAux (c :: d :: rest) =
      if c = '.' ∧ d = '.' then '.' :: collapseAux rest
      else c :: collapseAux (d :: rest) := by
  rfl

/-- The collapse pass preserves "does not start with a period". -/
theorem collapse_head_ne (l : List Char) (hl : startsWithL ['.'] l = false) :
    startsWithL ['.'] (collapseAux l) = false := by
  match l with
  | [] => simpa [collapseAux] using hl
  | [c] => simpa [collapseAux] using hl
  | c :: d :: rest =>
    have hc : ('.' == c) = false := by
      simpa [startsWithL] using hl
    rw [collapseAux_two, if_neg]
    · simp [startsWithL, hc]
    · rintro ⟨rfl, -⟩; simp at hc

/-- The collapse pass never produces a double period from an input without a
triple period. -/
theorem collapse_no_double (l : List Char) (h : hasSubL ['.', '.', '.'] l = false) :
    hasSubL ['.', '.'] (collapseAux l) = false := by
  induction l using collapseAux.induct with
  | case1 => simp [collapseAux, hasSubL, startsWithL]
  | case2 c => simp [collapseAux, hasSubL, startsWithL]
  | case3 c d rest hcd ih =>
    obtain ⟨rfl, rfl⟩ := hcd
    have h1 : (startsWithL ['.', '.', '.'] ('.' :: '.' :: rest) ||
        hasSubL ['.', '.', '.'] ('.' :: rest)) = false := h
    rcases Bool.or_eq_false_iff.mp h1 with ⟨ha, hb⟩
    have h2 : (startsWithL ['.', '.', '.'] ('.' :: rest) ||
        hasSubL ['.', '.', '.'] rest) = false := hb
    rcases Bool.or_eq_false_iff.mp h2 with ⟨-, hd2⟩
    have hr : startsWithL ['.'] rest = false := by
      simpa [startsWithL] using ha
    rw [collapseAux_two, if_pos ⟨rfl, rfl⟩]
    show (startsWithL ['.', '.'] ('.' :: collapseAux rest) ||
      hasSubL ['.', '.'] (collapseAux rest)) = false
    refine Bool.or_eq_false_iff.mpr ⟨?_, ih hd2⟩
    simp [startsWithL, collapse_head_ne rest hr]
  | case4 c d rest hcd ih =>
    have h1 : (startsWithL ['.', '.', '.'] (c :: d :: rest) ||
        hasSubL ['.', '.', '.'] (d :: rest)) = false := h
    rcases Bool.or_eq_false_iff.mp h1 with ⟨-, hb⟩
    rw [collapseAux_two, if_neg hcd]
    show (startsWithL ['.', '.'] (c :: collapseAux (d :: rest)) ||
      hasSubL ['.', '.'] (collapseAux (d :: rest))) = false
    refine Bool.or_eq_false_iff.mpr ⟨?_, ih hb⟩
    by_cases hc : c = '.'
    · subst hc
      have hd : d ≠ '.' := fun hd => hcd ⟨rfl, hd⟩
      have hds : startsWithL ['.'] (d :: rest) = false := by
        simp [startsWithL]
        exact fun hdd => absurd hdd.symm hd
      simp [startsWithL, collapse_head_ne (d :: rest) hds]
    · simp [startsWithL]
      exact fun hcc => absurd hcc.symm hc

/-! ## Claim C1 — the tense sub-heading

The spec claims the sub-heading names the bucket's tense (`Tense: {tense}`
for a non-empty tense, the default `present` only for imperative).  The
code computes `` `Tense: ${tense || mood === 'imperative' ? "present" :
""}` `` in which, by operator precedence, the whole of
`tense || mood === 'imperative'` is the condition of the conditional
operator, so every bucket that is emitted at all is headed
`Tense: present`.  The theorem evaluates the code at a failing input:
a form classified under tense `imperfect` is emitted under a sub-heading
reading `Tense: present`, and the rendered output never names
`imperfect`. -/

/-- **C1** (code bug evidence): for language `es` and a single form tagged
`indicative`/`imperfect`, the emitted sub-heading is `##### Tense: present`
and the string `imperfect` appears nowhere in the output, contradicting the
specified `Tense: {tense}` sub-heading. -/
theorem c1_tense_heading_always_present :
    containsSub (renderForms "es" [⟨"habl", ["indicative", "imperfect"]⟩])
        "##### Tense: present" = true ∧
    containsSub (renderForms "es" [⟨"habl", ["indicative", "imperfect"]⟩])
        "imperfect" = false := by
  decide

/-! ## Claim C3 — the complex-branch word filter -/

/-- **C3** (counterexample): the claim says a form whose word contains a
vocabulary name case-insensitively (e.g. containing `Present`) is dropped.
The code lowercases only the (already lowercase) vocabulary entry, not the
word, so the match is case-sensitive on the word: the form with word
`Present` case-insensitively contains the tense name `present` (first
conjunct), yet it survives the filter and is rendered in the output. -/
theorem c3_case_insensitive_filter_counterexample :
    containsSub (toLowerStr "Present") "present" = true ∧
    keepFormComplex ⟨"Present", ["indicative", "present"]⟩ = true ∧
    containsSub (renderForms "es" [⟨"Present", ["indicative", "present"]⟩])
        "| Present |" = true := by
  decide

/-- **C3** (amended): in the complex branch a form is discarded whenever its
word-string contains, as a *case-sensitive* substring, the (lowercase)
literal name of any tense, grammatical number or grammatical person from
the controlled vocabularies. -/
theorem c3_word_filter_case_sensitive (f : Form) (v : String)
    (hv : v ∈ tensesVocab ++ numbersVocab ++ personsVocab)
    (hc : containsSub f.word (toLowerStr v) = true) :
    keepFormComplex f = false := by
  rcases List.mem_append.mp hv with hv' | hp
  · rcases List.mem_append.mp hv' with ht | hn
    · have h1 : tensesVocab.any (fun t => containsSub f.word (toLowerStr t)) = true :=
        List.any_eq_true.mpr ⟨v, ht, hc⟩
      simp [keepFormComplex, h1]
    · have h1 : numbersVocab.any (fun n => containsSub f.word (toLowerStr n)) = true :=
        List.any_eq_true.mpr ⟨v, hn, hc⟩
      simp [keepFormComplex, h1]
  · have h1 : personsVocab.any (fun p => containsSub f.word (toLowerStr p)) = true :=
      List.any_eq_true.mpr ⟨v, hp, hc⟩
    simp [keepFormComplex, h1]

/-- Witness for `c3_word_filter_case_sensitive` at a concrete input. -/
theorem c3_word_filter_case_sensitive_witness :
    ("present" ∈ tensesVocab ++ numbersVocab ++ personsVocab) ∧
    containsSub "xpresentx" (toLowerStr "present") = true ∧
    keepFormComplex ⟨"xpresentx", ["indicative"]⟩ = false :=
  ⟨by decide, by decide,
    c3_word_filter_case_sensitive ⟨"xpresentx", ["indicative"]⟩ "present" (by decide) (by decide)⟩

/-! ## Claim C4 — the sense outline -/

/-- **C4**: for every sense tree of the claim's shape — one top-level
sense with two subsenses, the second having one subsense of its own, with
arbitrary definition texts — each recursive level numbers its own list
from 1 in input order, the first nesting is indented 8 spaces (indent
level 2) and the next nesting 12 spaces (exactly one more 4-space unit);
with the texts `def`, `sub1`, `sub2`, `subsub1` this is precisely the
outline `1. def` / `1. sub1` / `2. sub2` / `1. subsub1`. -/
theorem c4_sense_outline_example (a b c d : String) :
    renderSenses [⟨a, [], [], [], [], [], [],
      [⟨b, [], [], [], [], [], [], []⟩,
        ⟨c, [], [], [], [], [], [],
          [⟨d, [], [], [], [], [], [], []⟩]⟩]⟩] =
    "### Senses\n1. " ++ (a ++ ("\n        1. " ++ (b ++ ("\n        2. " ++
      (c ++ ("\n            1. " ++ (d ++ "\n\n\n\n\n"))))))) := by
  have h1 : (toString (1 : Nat)) = "1" := rfl
  have h2 : (toString (2 : Nat)) = "2" := rfl
  simp only [renderSenses, renderTopSenses, renderSubsList]
  apply String.ext
  simp [h1, h2, strData_append, repeatStr, quotesBlock, quotesBlockAux, concatStr]

/-! ## Claim C7 — the double-period collapse -/

/-- **C7** (counterexample): the final rendered document can contain `..`:
a headword containing `...` (three periods collapse into two) leaves `..`
in the returned text, refuting "the final rendered document contains no
occurrence of `..`". -/
theorem c7_double_period_counterexample :
    containsSub (renderMarkdown "en" ⟨"a...b", [], ⟨"u", "L", "lu"⟩⟩) ".." = true := by
  decide

/-- **C7** (amended): the renderer applies one left-to-right,
non-overlapping `.. → .` replacement pass to the assembled text, so the
returned document contains no `..` provided the pre-collapse text contains
no triple period `...`; an isolated doubled period such as `etc..` is
collapsed to `etc.`. -/
theorem c7_collapse_pass (lang : String) (e : DictionaryEntry)
    (h : containsSub (headerOf e.word e.source.url ++
      concatStr ((groupEntries e.entries).map (renderSection lang))) "..." = false) :
    containsSub (renderMarkdown lang e) ".." = false ∧ collapseDots "etc.." = "etc." := by
  refine ⟨?_, by decide⟩
  exact collapse_no_double _ h

/-- Witness for `c7_collapse_pass` at a concrete input. -/
theorem c7_collapse_pass_witness :
    containsSub (headerOf "ab" "u" ++
      concatStr ((groupEntries []).map (renderSection "en"))) "..." = false ∧
    (containsSub (renderMarkdown "en" ⟨"ab", [], ⟨"u", "L", "lu"⟩⟩) ".." = false ∧
      collapseDots "etc.." = "etc.") :=
  ⟨by decide, c7_collapse_pass "en" ⟨"ab", [], ⟨"u", "L", "lu"⟩⟩ (by decide)⟩

/-! ## Claim C8 — empty inputs -/

/-- **C8**: empty pronunciations, forms and senses each render to the empty
string, and a record with no entries renders to the collapsed header alone
(title line and source link, nothing else). -/
theorem c8_empty_inputs (lang w : String) (src : SourceRef) :
    renderPronunciations [] = "" ∧
    renderForms lang [] = "" ∧
    renderSenses [] = "" ∧
    renderMarkdown lang ⟨w, [], src⟩ = collapseDots (headerOf w src.url) := by
  refine ⟨rfl, rfl, rfl, ?_⟩
  simp [renderMarkdown, groupEntries, concatStr, strAppend_empty]

/-! ## Claim C9 — the favorites uniqueness key -/

/-- **C9** (counterexample): the claim says `addEntry` leaves the store
unchanged whenever the trimmed, lowercased `(language, word)` pair already
keys a stored entry.  The existence check compares the raw arguments
against the stored (already formatted) fields, so adding `("EN", "Dog")`
on top of a stored `("en", "dog")` appends a second entry with the same
trimmed/lowercased key. -/
theorem c9_duplicate_key_counterexample :
    (addEntry (addEntry [] "en" "dog" "m" "u") "EN" "Dog" "m2" "u2").map
        (fun f => (formatText f.language, formatText f.word)) =
      [("en", "dog"), ("en", "dog")] ∧
    formatText "EN" = "en" ∧ formatText "Dog" = "dog" := by
  decide

/-- **C9** (amended): `addEntry` leaves the store unchanged exactly on a
*raw* exact match — when some stored entry's `language` and `word` fields
equal the untransformed arguments. -/
theorem c9_add_entry_raw_match_unchanged (favorites : List FavoriteEntry)
    (language word markdown url : String)
    (h : favorites.any (fun fav => decide (fav.language = language ∧ fav.word = word)) = true) :
    addEntry favorites language word markdown url = favorites := by
  simp only [addEntry, h, if_true]

/-- Witness for `c9_add_entry_raw_match_unchanged` at a concrete store. -/
theorem c9_add_entry_raw_match_unchanged_witness :
    ([⟨"en", "dog", "m", "u"⟩] : List FavoriteEntry).any
        (fun fav => decide (fav.language = "en" ∧ fav.word = "dog")) = true ∧
    addEntry [⟨"en", "dog", "m", "u"⟩] "en" "dog" "m2" "u2" = [⟨"en", "dog", "m", "u"⟩] :=
  ⟨by decide, c9_add_entry_raw_match_unchanged [⟨"en", "dog", "m", "u"⟩] "en" "dog" "m2" "u2" (by decide)⟩

/-! ## Claim C6 — per-bucket duplicate suppression -/

/-- Counting through `dedupSeen`: an entry already seen is dropped
entirely; otherwise exactly one copy of each distinct entry survives. -/
theorem countL_dedupSeen (l : List String) (seen : List String) (r : String) :
    countL r (dedupSeen l seen) = if r ∈ seen then 0 else min 1 (countL r l) := by
  induction l generalizing seen with
  | nil => simp [dedupSeen, countL]
  | cons x rest ih =>
    by_cases hx : x ∈ seen
    · rw [dedupSeen, if_pos hx, ih]
      by_cases hr : r ∈ seen
      · simp [hr]
      · have hxr : ¬(x = r) := fun h => hr (h ▸ hx)
        simp [hr, countL, hxr]
    · rw [dedupSeen, if_neg hx]
      by_cases hxr : x = r
      · subst hxr
        rw [countL, if_pos rfl, ih]
        have hmem : x ∈ seen ++ [x] := by simp
        rw [if_pos hmem, if_neg hx]
        have hc : countL x (x :: rest) = 1 + countL x rest := by rw [countL, if_pos rfl]
        rw [hc, min_eq_left (by omega)]
      · rw [countL, if_neg hxr, ih, countL, if_neg hxr]
        have hiff : (r ∈ seen ++ [x]) ↔ r ∈ seen := by
          simp [List.mem_append]
          exact fun h => absurd h.symm hxr
        by_cases hr : r ∈ seen
        · rw [if_pos (hiff.mpr hr), if_pos hr]
        · rw [if_neg (fun h => hr (hiff.mp h)), if_neg hr]
          simp

/-- **C6**: duplicate suppression in the complex branch is scoped to one
tense bucket.  First conjunct: within a bucket, the dedup tracker keeps
exactly one copy of each distinct row string (`min 1` of its input count),
starting from an empty tracker.  Second conjunct: the tracker is reset per
bucket, so an identical row recurs across buckets — two identical
present-tense forms and an imperfect form producing the same row text
render as one row in the first bucket's table and the same row again in
the second bucket's table. -/
theorem c6_dedup_scoped_per_tense :
    (∀ (rows : List String) (r : String),
      countL r (firstDedup rows) = min 1 (countL r rows)) ∧
    renderForms "es"
        [⟨"hablo", ["indicative", "present", "singular", "first-person"]⟩,
          ⟨"hablo", ["indicative", "present", "singular", "first-person"]⟩,
          ⟨"hablo", ["indicative", "imperfect", "singular", "first-person"]⟩] =
      "### Forms\n#### Mood: indicative\n##### Tense: present\n| Person & Number | Form |\n|---|---|\n| first-person singular | hablo |\n##### Tense: present\n| Person & Number | Form |\n|---|---|\n| first-person singular | hablo |\n\n\n\n" := by
  constructor
  · intro rows r
    rw [firstDedup, countL_dedupSeen]
    simp
  · set_option maxRecDepth 8000 in decide

/-! ## Claim C10 — empty-tag forms in the two branches -/

/-- An empty-tag form fails the complex-branch filter outright. -/
theorem keepFormComplex_empty_tags (w : String) : keepFormComplex ⟨w, []⟩ = false := by
  simp [keepFormComplex]

/-- An empty-tag form leaves the complex grouping untouched. -/
theorem buildGrouped_insert_empty_tags (w : String) (xs ys : List Form) :
    buildGrouped (xs ++ ⟨w, []⟩ :: ys) = buildGrouped (xs ++ ys) := by
  unfold buildGrouped
  rw [List.foldl_append, List.foldl_append, List.foldl_cons]
  rw [if_neg (by simp [keepFormComplex_empty_tags])]

/-- `simpleBody` distributes over list concatenation. -/
theorem simpleBody_append (l₁ l₂ : List Form) :
    simpleBody (l₁ ++ l₂) = simpleBody l₁ ++ simpleBody l₂ := by
  induction l₁ with
  | nil => simp [simpleBody, strEmpty_append]
  | cons f rest ih => simp [simpleBody, ih, strAppend_assoc]

/-- The simple-branch bullet of an empty-tag form is `- word ()`. -/
theorem simpleBullet_empty_tags (w : String) :
    simpleBullet ⟨w, []⟩ = "- " ++ (w ++ " ()\n") := by
  unfold simpleBullet
  rw [if_neg (by simp)]
  simp only [joinSep, strEmpty_append]
  rw [show (" (" ++ ")\n" : String) = " ()\n" from by decide]

/-- **C10**: a form with an empty tag set is handled asymmetrically.
Complex branch: it is filtered out before grouping, so it contributes
nothing to the grouped structure (first conjunct) and — whenever the rest
of the forms list is non-empty, so that the section's existence does not
change — nothing to the rendered Forms section at all (second conjunct).
Simple branch: it is still rendered, as the bullet `- word ()` in sequence
(third conjunct). -/
theorem c10_empty_tags_asymmetry :
    (∀ (w : String) (xs ys : List Form),
      buildGrouped (xs ++ ⟨w, []⟩ :: ys) = buildGrouped (xs ++ ys)) ∧
    (∀ (lang w : String) (xs ys : List Form),
      lang ∈ complexConjugationsLanguages → xs ++ ys ≠ [] →
        renderForms lang (xs ++ ⟨w, []⟩ :: ys) = renderForms lang (xs ++ ys)) ∧
    (∀ (lang w : String) (xs ys : List Form),
      lang ∉ complexConjugationsLanguages →
        renderForms lang (xs ++ ⟨w, []⟩ :: ys) =
          "### Forms\n" ++
            ((simpleBody xs ++ (("- " ++ (w ++ " ()\n")) ++ simpleBody ys)) ++ "\n\n")) := by
  refine ⟨buildGrouped_insert_empty_tags, ?_, ?_⟩
  · intro lang w xs ys hlang hne
    have hxs : (xs ++ (⟨w, []⟩ : Form) :: ys).isEmpty = false := by
      cases h : xs ++ (⟨w, []⟩ : Form) :: ys with
      | nil => simp at h
      | cons a l => rfl
    have hys : (xs ++ ys).isEmpty = false := by
      cases h : xs ++ ys with
      | nil => exact absurd h hne
      | cons a l => rfl
    have hdec : decide (lang ∈ complexConjugationsLanguages) = true := decide_eq_true hlang
    simp only [renderForms, hxs, hys, hdec, Bool.false_eq_true, if_false, if_true]
    unfold complexBody
    rw [buildGrouped_insert_empty_tags]
  · intro lang w xs ys hlang
    have hxs : (xs ++ (⟨w, []⟩ : Form) :: ys).isEmpty = false := by
      cases h : xs ++ (⟨w, []⟩ : Form) :: ys with
      | nil => simp at h
      | cons a l => rfl
    have hdec : decide (lang ∈ complexConjugationsLanguages) = false :=
      decide_eq_false hlang
    simp only [renderForms, hxs, hdec, Bool.false_eq_true, if_false]
    rw [simpleBody_append]
    rw [show simpleBody ((⟨w, []⟩ : Form) :: ys) = simpleBullet ⟨w, []⟩ ++ simpleBody ys from rfl]
    rw [simpleBullet_empty_tags]

/-- Witness for `c10_empty_tags_asymmetry` at concrete inputs. -/
theorem c10_empty_tags_asymmetry_witness :
    ("es" ∈ complexConjugationsLanguages ∧
      renderForms "es" [⟨"corro", ["gerund"]⟩, ⟨"x", []⟩] =
        renderForms "es" [⟨"corro", ["gerund"]⟩]) ∧
    ("en" ∉ complexConjugationsLanguages ∧
      renderForms "en" [⟨"x", []⟩] =
        "### Forms\n" ++
          ((simpleBody [] ++ (("- " ++ ("x" ++ " ()\n")) ++ simpleBody [])) ++ "\n\n")) :=
  ⟨⟨by decide,
      c10_empty_tags_asymmetry.2.1 "es" "x" [⟨"corro", ["gerund"]⟩] [] (by decide) (by simp)⟩,
    ⟨by decide, c10_empty_tags_asymmetry.2.2 "en" "x" [] [] (by decide)⟩⟩

/-! ## First-encounter deduplication lemmas -/

theorem mem_dedupSeen (x : String) (l seen : List String) :
    x ∈ dedupSeen l seen ↔ x ∈ l ∧ x ∉ seen := by
  induction l generalizing seen with
  | nil => simp [dedupSeen]
  | cons y rest ih =>
    by_cases hy : y ∈ seen
    · rw [dedupSeen, if_pos hy, ih]
      constructor
      · exact fun ⟨h1, h2⟩ => ⟨List.mem_cons_of_mem y h1, h2⟩
      · rintro ⟨h1, h2⟩
        rcases List.mem_cons.mp h1 with rfl | h1
        · exact absurd hy h2
        · exact ⟨h1, h2⟩
    · rw [dedupSeen, if_neg hy]
      rw [List.mem_cons, ih]
      constructor
      · rintro (rfl | ⟨h1, h2⟩)
        · exact ⟨List.mem_cons_self x rest, hy⟩
        · exact ⟨List.mem_cons_of_mem y h1,
            fun hs => h2 (List.mem_append_left [y] hs)⟩
      · rintro ⟨h1, h2⟩
        by_cases hxy : x = y
        · exact Or.inl hxy
        · rcases List.mem_cons.mp h1 with rfl | h1
          · exact absurd rfl hxy
          · refine Or.inr ⟨h1, fun hs => ?_⟩
            rcases List.mem_append.mp hs with hs | hs
            · exact h2 hs
            · exact hxy (List.mem_singleton.mp hs)

theorem dedupSeen_nodup (l : List String) (seen : List String) :
    (dedupSeen l seen).Nodup := by
  induction l generalizing seen with
  | nil => simp [dedupSeen]
  | cons y rest ih =>
    by_cases hy : y ∈ seen
    · rw [dedupSeen, if_pos hy]; exact ih seen
    · rw [dedupSeen, if_neg hy]
      refine List.Nodup.cons ?_ (ih (seen ++ [y]))
      intro hmem
      exact absurd (List.mem_append_right seen (List.mem_singleton.mpr rfl))
        ((mem_dedupSeen y rest (seen ++ [y])).mp hmem).2

theorem dedupSeen_append (a b seen : List String) :
    dedupSeen (a ++ b) seen = dedupSeen a seen ++ dedupSeen b (seen ++ dedupSeen a seen) := by
  induction a generalizing seen with
  | nil => simp [dedupSeen]
  | cons x rest ih =>
    by_cases hx : x ∈ seen
    · rw [List.cons_append, dedupSeen, if_pos hx, dedupSeen, if_pos hx, ih]
    · rw [List.cons_append, dedupSeen, if_neg hx, dedupSeen, if_neg hx, ih]
      rw [List.cons_append, List.append_assoc]
      rfl

theorem mem_firstDedup (x : String) (l : List String) : x ∈ firstDedup l ↔ x ∈ l := by
  rw [firstDedup, mem_dedupSeen]
  simp

theorem firstDedup_nodup (l : List String) : (firstDedup l).Nodup :=
  dedupSeen_nodup l []

theorem firstDedup_concat_mem (l : List String) (k : String) (h : k ∈ l) :
    firstDedup (l ++ [k]) = firstDedup l := by
  rw [firstDedup, firstDedup, dedupSeen_append]
  rw [show dedupSeen [k] ([] ++ dedupSeen l []) = [] from ?_]
  · simp
  · rw [dedupSeen, if_pos]
    · rfl
    · simpa using (mem_firstDedup k l).mpr h

theorem firstDedup_concat_not_mem (l : List String) (k : String) (h : k ∉ l) :
    firstDedup (l ++ [k]) = firstDedup l ++ [k] := by
  rw [firstDedup, firstDedup, dedupSeen_append]
  have hk : k ∉ ([] : List String) ++ dedupSeen l [] := by
    simp only [List.nil_append]
    intro hm
    exact absurd ((mem_firstDedup k l).mp hm) h
  rw [show dedupSeen [k] (([] : List String) ++ dedupSeen l []) = [k] from by
    rw [dedupSeen, if_neg hk]; rfl]

/-! ## Claim C2 — grouping by part of speech

Specification-level description of the grouped structure: the key list is
the first-occurrence deduplication of the entries' part-of-speech tags in
order, and each group concatenates, in encounter order, the lists of every
entry carrying that tag, with the language taken from the first such
entry. -/

/-- The part-of-speech keys in first-encounter order. -/
def posKeys (es : List LanguageEntry) : List String :=
  firstDedup (es.map (fun e => e.partOfSpeech))

/-- All entries filed under tag `k`, in order. -/
def entriesFor (k : String) (es : List LanguageEntry) : List LanguageEntry :=
  es.filter (fun e => decide (e.partOfSpeech = k))

/-- The language of the first entry filed under `k`. -/
def specLang (k : String) (es : List LanguageEntry) : LangRef :=
  match es.find? (fun e => decide (e.partOfSpeech = k)) with
  | some e => e.language
  | none => ⟨"", ""⟩

/-- The specified contents of the group keyed `k`. -/
def specGroup (es : List LanguageEntry) (k : String) : GroupedEntry :=
  ⟨specLang k es, k,
    concatMapL (fun e => e.pronunciations) (entriesFor k es),
    concatMapL (fun e => e.forms) (entriesFor k es),
    concatMapL (fun e => e.senses) (entriesFor k es)⟩

/-- Merging one entry's lists into an existing group. -/
def mergeGroup (g : GroupedEntry) (e : LanguageEntry) : GroupedEntry :=
  ⟨g.language, g.partOfSpeech, g.pronunciations ++ e.pronunciations,
    g.forms ++ e.forms, g.senses ++ e.senses⟩

theorem groupEntries_concat (es : List LanguageEntry) (e : LanguageEntry) :
    groupEntries (es ++ [e]) = updateGroup e (groupEntries es) := by
  simp [groupEntries, List.foldl_append]

theorem updateGroup_no_match (gs : List GroupedEntry) (e : LanguageEntry)
    (h : ∀ g ∈ gs, g.partOfSpeech ≠ e.partOfSpeech) :
    updateGroup e gs =
      gs ++ [⟨e.language, e.partOfSpeech, e.pronunciations, e.forms, e.senses⟩] := by
  induction gs with
  | nil => rfl
  | cons g rest ih =>
    rw [updateGroup, if_neg (h g (List.mem_cons_self g rest))]
    rw [ih (fun g' hg' => h g' (List.mem_cons_of_mem g hg'))]
    rfl

theorem updateGroup_eq_map (gs : List GroupedEntry) (e : LanguageEntry)
    (hnd : (gs.map (fun g => g.partOfSpeech)).Nodup)
    (hm : e.partOfSpeech ∈ gs.map (fun g => g.partOfSpeech)) :
    updateGroup e gs =
      gs.map (fun g => if g.partOfSpeech = e.partOfSpeech then mergeGroup g e else g) := by
  induction gs with
  | nil => simp at hm
  | cons g rest ih =>
    by_cases hg : g.partOfSpeech = e.partOfSpeech
    · rw [updateGroup, if_pos hg, List.map_cons, if_pos hg]
      have hrest : rest.map (fun g => if g.partOfSpeech = e.partOfSpeech then mergeGroup g e else g)
          = rest := by
        have hni : ∀ g' ∈ rest, g'.partOfSpeech ≠ e.partOfSpeech := by
          intro g' hg' heq
          rw [List.map_cons, List.nodup_cons] at hnd
          exact hnd.1 (hg ▸ heq ▸ List.mem_map_of_mem (fun g => g.partOfSpeech) hg')
        calc rest.map (fun g => if g.partOfSpeech = e.partOfSpeech then mergeGroup g e else g)
            = rest.map id := List.map_congr_left (fun g' hg' => if_neg (hni g' hg'))
          _ = rest := List.map_id rest
      rw [hrest, mergeGroup]
    · rw [updateGroup, if_neg hg, List.map_cons, if_neg hg]
      rw [List.map_cons, List.nodup_cons] at hnd
      rw [List.map_cons] at hm
      rcases List.mem_cons.mp hm with heq | hmr
      · exact absurd heq.symm hg
      · rw [ih hnd.2 hmr]

theorem specGroup_pos (es : List LanguageEntry) (k : String) :
    (specGroup es k).partOfSpeech = k := rfl

theorem entriesFor_concat (k : String) (es : List LanguageEntry) (e : LanguageEntry) :
    entriesFor k (es ++ [e]) =
      entriesFor k es ++ (if e.partOfSpeech = k then [e] else []) := by
  rw [entriesFor, entriesFor, List.filter_append]
  congr 1
  by_cases h : e.partOfSpeech = k
  · simp [h]
  · simp [h]

theorem specLang_concat_mem (k : String) (es : List LanguageEntry) (e : LanguageEntry)
    (h : (es.find? (fun x => decide (x.partOfSpeech = k))).isSome) :
    specLang k (es ++ [e]) = specLang k es := by
  rw [specLang, specLang, List.find?_append]
  obtain ⟨v, hv⟩ := Option.isSome_iff_exists.mp h
  rw [hv]
  rfl

theorem posKeys_mem_isSome (k : String) (es : List LanguageEntry) (h : k ∈ posKeys es) :
    (es.find? (fun x => decide (x.partOfSpeech = k))).isSome := by
  rw [List.find?_isSome]
  rw [posKeys, mem_firstDedup] at h
  obtain ⟨e, he, heq⟩ := List.mem_map.mp h
  exact ⟨e, he, by simp [heq]⟩

theorem specGroup_concat_ne (k : String) (es : List LanguageEntry) (e : LanguageEntry)
    (h : e.partOfSpeech ≠ k) :
    specGroup (es ++ [e]) k = specGroup es k := by
  have h1 : entriesFor k (es ++ [e]) = entriesFor k es := by
    rw [entriesFor_concat, if_neg h, List.append_nil]
  have h2 : specLang k (es ++ [e]) = specLang k es := by
    rw [specLang, specLang, List.find?_append]
    rw [show List.find? (fun x => decide (x.partOfSpeech = k)) [e] = none from by simp [h]]
    simp
  rw [specGroup, specGroup, h1, h2]

theorem specGroup_concat_eq (es : List LanguageEntry) (e : LanguageEntry)
    (hsome : (es.find? (fun x => decide (x.partOfSpeech = e.partOfSpeech))).isSome) :
    specGroup (es ++ [e]) e.partOfSpeech = mergeGroup (specGroup es e.partOfSpeech) e := by
  have h1 : entriesFor e.partOfSpeech (es ++ [e]) = entriesFor e.partOfSpeech es ++ [e] := by
    rw [entriesFor_concat, if_pos rfl]
  have h2 : specLang e.partOfSpeech (es ++ [e]) = specLang e.partOfSpeech es :=
    specLang_concat_mem _ _ _ hsome
  rw [specGroup, specGroup, mergeGroup, h1, h2]
  simp [concatMapL_append, concatMapL]

theorem specGroup_concat_new (es : List LanguageEntry) (e : LanguageEntry)
    (h : ∀ x ∈ es, x.partOfSpeech ≠ e.partOfSpeech) :
    specGroup (es ++ [e]) e.partOfSpeech =
      ⟨e.language, e.partOfSpeech, e.pronunciations, e.forms, e.senses⟩ := by
  have h1 : entriesFor e.partOfSpeech es = [] := by
    rw [entriesFor]
    rw [List.filter_eq_nil_iff]
    intro x hx
    simpa using h x hx
  have h2 : entriesFor e.partOfSpeech (es ++ [e]) = [e] := by
    rw [entriesFor_concat, if_pos rfl, h1, List.nil_append]
  have h3 : specLang e.partOfSpeech (es ++ [e]) = e.language := by
    rw [specLang, List.find?_append]
    rw [show es.find? (fun x => decide (x.partOfSpeech = e.partOfSpeech)) = none from
      List.find?_eq_none.mpr (fun x hx => by simpa using h x hx)]
    simp
  rw [specGroup, h2, h3]
  simp [concatMapL]

/-- The grouping loop of `renderMarkdown` computes, for every input, one
group per distinct part-of-speech tag in first-encounter order, each
concatenating its contributors' lists in encounter order. -/
theorem groupEntries_characterization (es : List LanguageEntry) :
    groupEntries es = (posKeys es).map (specGroup es) := by
  induction es using List.reverseRecOn with
  | nil => rfl
  | append_singleton es e ih =>
    rw [groupEntries_concat, ih]
    have hkeysmap :
        (((posKeys es).map (specGroup es)).map (fun g => g.partOfSpeech)) = posKeys es := by
      rw [List.map_map]
      calc (posKeys es).map ((fun g => g.partOfSpeech) ∘ specGroup es)
          = (posKeys es).map id := List.map_congr_left (fun k _ => rfl)
        _ = posKeys es := List.map_id _
    by_cases hmem : e.partOfSpeech ∈ es.map (fun x => x.partOfSpeech)
    · have hpk : e.partOfSpeech ∈ posKeys es := (mem_firstDedup _ _).mpr hmem
      have hsome := posKeys_mem_isSome _ _ hpk
      have hkeys : posKeys (es ++ [e]) = posKeys es := by
        rw [posKeys, List.map_append]
        rw [show (([e] : List LanguageEntry).map (fun x => x.partOfSpeech)) =
          [e.partOfSpeech] from rfl]
        exact firstDedup_concat_mem _ _ hmem
      rw [hkeys]
      rw [updateGroup_eq_map _ _ (by rw [hkeysmap]; exact firstDedup_nodup _)
        (by rw [hkeysmap]; exact hpk)]
      rw [List.map_map]
      refine List.map_congr_left (fun k hk => ?_)
      show (if (specGroup es k).partOfSpeech = e.partOfSpeech
        then mergeGroup (specGroup es k) e else specGroup es k) = specGroup (es ++ [e]) k
      rw [specGroup_pos]
      by_cases hke : k = e.partOfSpeech
      · subst hke
        rw [if_pos rfl]
        exact (specGroup_concat_eq es e hsome).symm
      · rw [if_neg hke]
        exact (specGroup_concat_ne k es e (fun h => hke h.symm)).symm
    · have hnm : ∀ x ∈ es, x.partOfSpeech ≠ e.partOfSpeech := by
        intro x hx heq
        exact hmem (heq ▸ List.mem_map_of_mem (fun x => x.partOfSpeech) hx)
      have hkeys : posKeys (es ++ [e]) = posKeys es ++ [e.partOfSpeech] := by
        rw [posKeys, List.map_append]
        rw [show (([e] : List LanguageEntry).map (fun x => x.partOfSpeech)) =
          [e.partOfSpeech] from rfl]
        exact firstDedup_concat_not_mem _ _ hmem
      rw [updateGroup_no_match _ _ ?_]
      · rw [hkeys, List.map_append]
        congr 1
        · refine List.map_congr_left (fun k hk => ?_)
          have hne : e.partOfSpeech ≠ k := by
            intro heq
            exact hmem (heq ▸ (mem_firstDedup _ _).mp hk)
          exact (specGroup_concat_ne k es e hne).symm
        · rw [show ([e.partOfSpeech].map (specGroup (es ++ [e]))) =
            [specGroup (es ++ [e]) e.partOfSpeech] from rfl]
          rw [specGroup_concat_new es e hnm]
      · intro g hg
        obtain ⟨k, hk, rfl⟩ := List.mem_map.mp hg
        rw [specGroup_pos]
        intro heq
        exact hmem (heq ▸ (mem_firstDedup _ _).mp hk)

/-- **C2**: grouping by part of speech preserves first-encountered key
order and merges rather than overwrites.  First conjunct: in general,
`groupEntries` yields one group per distinct part-of-speech tag, in
first-encounter order, whose pronunciation/form/sense lists concatenate
the contributing entries' lists in encounter order, with the language of
the first contributor.  Second conjunct: for the entry sequence
`[(noun, A), (verb, B), (noun, C)]` the noun group's senses list is
`A.senses ++ C.senses` (likewise pronunciations and forms) and the groups
come out noun first, then verb. -/
theorem c2_group_by_pos_order_and_merge :
    (∀ es : List LanguageEntry, groupEntries es = (posKeys es).map (specGroup es)) ∧
    (∀ a b c : LanguageEntry,
      groupEntries [{ a with partOfSpeech := "noun" }, { b with partOfSpeech := "verb" },
          { c with partOfSpeech := "noun" }] =
        [⟨a.language, "noun", a.pronunciations ++ c.pronunciations, a.forms ++ c.forms,
            a.senses ++ c.senses⟩,
          ⟨b.language, "verb", b.pronunciations, b.forms, b.senses⟩]) := by
  refine ⟨groupEntries_characterization, ?_⟩
  intro a b c
  simp [groupEntries, updateGroup]

/-! ## Claim C5 — pronunciation grouping

Specification-level description: the table has one row per distinct bucket
key (the tags of each pronunciation, or the sentinel `"-"` for a tagless
one) in first-encounter order; a row's texts are contributed, in order, by
every pronunciation carrying that tag (once per occurrence of the tag),
and a row's phonetic-system type is the `type` of the first pronunciation
assigned to the bucket. -/

/-- The bucket keys in first-encounter order. -/
def pronKeys (ps : List Pronunciation) : List String :=
  firstDedup (concatMapL effTags ps)

/-- The texts accumulated under bucket `k`, in contribution order. -/
def specTexts (k : String) (ps : List Pronunciation) : List String :=
  concatMapL (fun p => ((effTags p).filter (fun t => decide (t = k))).map (fun _ => p.text)) ps

/-- The `type` of the first pronunciation assigned to bucket `k`, if any. -/
def specTypeOpt (k : String) (ps : List Pronunciation) : Option String :=
  (ps.find? (fun p => decide (k ∈ effTags p))).map (fun p => p.type)

/-- The `type` of the first pronunciation assigned to bucket `k`. -/
def specType (k : String) (ps : List Pronunciation) : String :=
  (specTypeOpt k ps).getD ""

/-- The texts stored under the first bucket keyed `k`. -/
def lookupTexts (k : String) : List PronGroup → List String
  | [] => []
  | g :: rest => if g.region = k then g.texts else lookupTexts k rest

/-- The type stored under the first bucket keyed `k`. -/
def lookupType (k : String) : List PronGroup → Option String
  | [] => none
  | g :: rest => if g.region = k then some g.type else lookupType k rest

/-- Inserting one text under each tag of a tag list in order. -/
def multiInsert (m : List PronGroup) (ts : List String) (ty tx : String) : List PronGroup :=
  ts.foldl (fun m tag => insertPronTag tag ty tx m) m

theorem stepPron_eq_multiInsert (m : List PronGroup) (p : Pronunciation) :
    stepPron m p = multiInsert m (effTags p) p.type p.text := rfl

theorem insertPronTag_keys (tag ty tx : String) (m : List PronGroup) :
    (insertPronTag tag ty tx m).map (fun g => g.region) =
      if tag ∈ m.map (fun g => g.region) then m.map (fun g => g.region)
      else m.map (fun g => g.region) ++ [tag] := by
  induction m with
  | nil => simp [insertPronTag]
  | cons g rest ih =>
    by_cases hg : g.region = tag
    · rw [insertPronTag, if_pos hg]
      rw [if_pos (show tag ∈ List.map (fun g => g.region) (g :: rest) from by
        rw [List.map_cons, ← hg]
        exact List.mem_cons_self _ _)]
      simp
    · rw [insertPronTag, if_neg hg, List.map_cons, ih]
      by_cases ht : tag ∈ rest.map (fun g => g.region)
      · rw [if_pos ht,
          if_pos (show tag ∈ List.map (fun g => g.region) (g :: rest) from by
            rw [List.map_cons]
            exact List.mem_cons_of_mem _ ht),
          List.map_cons]
      · rw [if_neg ht,
          if_neg (show tag ∉ List.map (fun g => g.region) (g :: rest) from by
            rw [List.map_cons]
            intro hmem
            rcases List.mem_cons.mp hmem with heq | hmem'
            · exact hg heq.symm
            · exact ht hmem'),
          List.map_cons, List.cons_append]

theorem insertPronTag_lookupTexts (k tag ty tx : String) (m : List PronGroup) :
    lookupTexts k (insertPronTag tag ty tx m) =
      if tag = k then lookupTexts k m ++ [tx] else lookupTexts k m := by
  induction m with
  | nil =>
    by_cases h : tag = k <;> simp [insertPronTag, lookupTexts, h]
  | cons g rest ih =>
    obtain ⟨r, ty0, xs⟩ := g
    by_cases hg : r = tag
    · subst hg
      by_cases hk : r = k
      · subst hk
        simp [insertPronTag, lookupTexts]
      · simp [insertPronTag, lookupTexts, hk]
    · by_cases hk : r = k
      · subst hk
        have htk : ¬ tag = r := fun h => hg h.symm
        simp [insertPronTag, lookupTexts, hg, htk]
      · simp [insertPronTag, lookupTexts, hg, hk, ih]

theorem insertPronTag_lookupType (k tag ty tx : String) (m : List PronGroup) :
    lookupType k (insertPronTag tag ty tx m) =
      if tag = k ∧ lookupType k m = none then some ty else lookupType k m := by
  induction m with
  | nil =>
    by_cases h : tag = k <;> simp [insertPronTag, lookupType, h]
  | cons g rest ih =>
    obtain ⟨r, ty0, xs⟩ := g
    by_cases hg : r = tag
    · subst hg
      by_cases hk : r = k
      · subst hk
        simp [insertPronTag, lookupType]
      · simp [insertPronTag, lookupType, hk]
    · by_cases hk : r = k
      · subst hk
        have htk : ¬ tag = r := fun h => hg h.symm
        simp [insertPronTag, lookupType, hg, htk]
      · simp [insertPronTag, lookupType, hg, hk, ih]

theorem multiInsert_keys (ts : List String) (ty tx : String) (m : List PronGroup) :
    (multiInsert m ts ty tx).map (fun g => g.region) =
      m.map (fun g => g.region) ++ dedupSeen ts (m.map (fun g => g.region)) := by
  induction ts generalizing m with
  | nil => simp [multiInsert, dedupSeen]
  | cons t ts' ih =>
    rw [multiInsert, List.foldl_cons]
    rw [show List.foldl (fun m tag => insertPronTag tag ty tx m) (insertPronTag t ty tx m) ts' =
      multiInsert (insertPronTag t ty tx m) ts' ty tx from rfl]
    rw [ih, insertPronTag_keys]
    by_cases ht : t ∈ m.map (fun g => g.region)
    · rw [if_pos ht, dedupSeen, if_pos ht]
    · rw [if_neg ht, dedupSeen, if_neg ht, List.append_assoc]
      rfl

theorem multiInsert_lookupTexts (k : String) (ts : List String) (ty tx : String)
    (m : List PronGroup) :
    lookupTexts k (multiInsert m ts ty tx) =
      lookupTexts k m ++ (ts.filter (fun t => decide (t = k))).map (fun _ => tx) := by
  induction ts generalizing m with
  | nil => simp [multiInsert]
  | cons t ts' ih =>
    rw [multiInsert, List.foldl_cons]
    rw [show List.foldl (fun m tag => insertPronTag tag ty tx m) (insertPronTag t ty tx m) ts' =
      multiInsert (insertPronTag t ty tx m) ts' ty tx from rfl]
    rw [ih, insertPronTag_lookupTexts]
    by_cases ht : t = k
    · rw [if_pos ht, List.filter_cons, if_pos (by simp [ht]), List.map_cons, List.append_assoc]
      rfl
    · rw [if_neg ht, List.filter_cons, if_neg (by simp [ht])]

theorem multiInsert_lookupType (k : String) (ts : List String) (ty tx : String)
    (m : List PronGroup) :
    lookupType k (multiInsert m ts ty tx) =
      if lookupType k m = none ∧ k ∈ ts then some ty else lookupType k m := by
  induction ts generalizing m with
  | nil => simp [multiInsert]
  | cons t ts' ih =>
    rw [multiInsert, List.foldl_cons]
    rw [show List.foldl (fun m tag => insertPronTag tag ty tx m) (insertPronTag t ty tx m) ts' =
      multiInsert (insertPronTag t ty tx m) ts' ty tx from rfl]
    rw [ih, insertPronTag_lookupType]
    by_cases hm : lookupType k m = none
    · by_cases htk : t = k
      · rw [if_pos (show t = k ∧ lookupType k m = none from ⟨htk, hm⟩)]
        rw [if_pos (show lookupType k m = none ∧ k ∈ t :: ts' from
          ⟨hm, by rw [← htk]; exact List.mem_cons_self t ts'⟩)]
        simp
      · rw [if_neg (show ¬(t = k ∧ lookupType k m = none) from fun h => htk h.1)]
        by_cases hts : k ∈ ts'
        · rw [if_pos (show lookupType k m = none ∧ k ∈ ts' from ⟨hm, hts⟩),
            if_pos (show lookupType k m = none ∧ k ∈ t :: ts' from
              ⟨hm, List.mem_cons_of_mem t hts⟩)]
        · rw [if_neg (show ¬(lookupType k m = none ∧ k ∈ ts') from fun h => hts h.2),
            if_neg (show ¬(lookupType k m = none ∧ k ∈ t :: ts') from by
              rintro ⟨-, hmem⟩
              rcases List.mem_cons.mp hmem with heq | hmem'
              · exact htk heq.symm
              · exact hts hmem')]
    · rw [if_neg (show ¬(t = k ∧ lookupType k m = none) from fun h => hm h.2)]
      rw [if_neg (show ¬(lookupType k m = none ∧ k ∈ ts') from fun h => hm h.1),
        if_neg (show ¬(lookupType k m = none ∧ k ∈ t :: ts') from fun h => hm h.1)]

theorem groupProns_concat (ps : List Pronunciation) (p : Pronunciation) :
    groupProns (ps ++ [p]) = stepPron (groupProns ps) p := by
  simp [groupProns, List.foldl_append]

theorem effTags_ne_nil (p : Pronunciation) : effTags p ≠ [] := by
  rw [effTags]
  by_cases h : p.tags.isEmpty
  · simp [h]
  · rw [if_neg h]
    intro hnil
    exact h (by simp [hnil])

theorem pronKeys_concat (ps : List Pronunciation) (p : Pronunciation) :
    pronKeys (ps ++ [p]) = pronKeys ps ++ dedupSeen (effTags p) (pronKeys ps) := by
  rw [pronKeys, concatMapL_append]
  rw [show concatMapL effTags [p] = effTags p ++ [] from rfl, List.append_nil]
  rw [firstDedup, dedupSeen_append, List.nil_append]
  rfl

theorem specTexts_concat (k : String) (ps : List Pronunciation) (p : Pronunciation) :
    specTexts k (ps ++ [p]) =
      specTexts k ps ++ ((effTags p).filter (fun t => decide (t = k))).map (fun _ => p.text) := by
  rw [specTexts, concatMapL_append]
  rw [show concatMapL
    (fun p => ((effTags p).filter (fun t => decide (t = k))).map (fun _ => p.text)) [p] =
    ((effTags p).filter (fun t => decide (t = k))).map (fun _ => p.text) ++ [] from rfl]
  rw [List.append_nil]
  rfl

theorem specTypeOpt_concat (k : String) (ps : List Pronunciation) (p : Pronunciation) :
    specTypeOpt k (ps ++ [p]) =
      if specTypeOpt k ps = none ∧ k ∈ effTags p then some p.type
      else specTypeOpt k ps := by
  rw [specTypeOpt, List.find?_append]
  cases hf : ps.find? (fun p => decide (k ∈ effTags p)) with
  | some v =>
    rw [if_neg (show ¬(specTypeOpt k ps = none ∧ k ∈ effTags p) from by
      rw [specTypeOpt, hf]
      rintro ⟨h, -⟩
      cases h)]
    rw [specTypeOpt, hf]
    simp
  | none =>
    by_cases hk : k ∈ effTags p
    · rw [if_pos (show specTypeOpt k ps = none ∧ k ∈ effTags p from
        ⟨by rw [specTypeOpt, hf]; rfl, hk⟩)]
      simp [List.find?, hk]
    · rw [if_neg (show ¬(specTypeOpt k ps = none ∧ k ∈ effTags p) from fun h => hk h.2)]
      rw [specTypeOpt, hf]
      simp [List.find?, hk]

theorem groupProns_keys (ps : List Pronunciation) :
    (groupProns ps).map (fun g => g.region) = pronKeys ps := by
  induction ps using List.reverseRecOn with
  | nil => rfl
  | append_singleton ps p ih =>
    rw [groupProns_concat, stepPron_eq_multiInsert, multiInsert_keys, ih, pronKeys_concat]

theorem groupProns_texts (k : String) (ps : List Pronunciation) :
    lookupTexts k (groupProns ps) = specTexts k ps := by
  induction ps using List.reverseRecOn with
  | nil => rfl
  | append_singleton ps p ih =>
    rw [groupProns_concat, stepPron_eq_multiInsert, multiInsert_lookupTexts, ih,
      specTexts_concat]

theorem groupProns_type (k : String) (ps : List Pronunciation) :
    lookupType k (groupProns ps) = specTypeOpt k ps := by
  induction ps using List.reverseRecOn with
  | nil => rfl
  | append_singleton ps p ih =>
    rw [groupProns_concat, stepPron_eq_multiInsert, multiInsert_lookupType, ih,
      specTypeOpt_concat]

/-- An association list of buckets with distinct regions is determined by
its region list and the per-region lookups. -/
theorem pronmap_reconstruct (m : List PronGroup)
    (hnd : (m.map (fun g => g.region)).Nodup) :
    m = (m.map (fun g => g.region)).map
      (fun k => ⟨k, (lookupType k m).getD "", lookupTexts k m⟩) := by
  induction m with
  | nil => rfl
  | cons g rest ih =>
    rw [List.map_cons, List.nodup_cons] at hnd
    rw [List.map_cons, List.map_cons]
    congr 1
    · cases g with
      | mk r t xs => simp [lookupType, lookupTexts]
    · calc rest = (rest.map (fun g => g.region)).map
            (fun k => ⟨k, (lookupType k rest).getD "", lookupTexts k rest⟩) := ih hnd.2
        _ = (rest.map (fun g => g.region)).map
            (fun k => ⟨k, (lookupType k (g :: rest)).getD "", lookupTexts k (g :: rest)⟩) := by
          refine List.map_congr_left (fun k hk => ?_)
          have hne : ¬ g.region = k := fun h => hnd.1 (h ▸ hk)
          rw [lookupType, if_neg hne, lookupTexts, if_neg hne]

/-- The pronunciation grouping loop computes exactly the specified table:
one bucket per distinct key in first-encounter order, carrying the first
contributor's type and the accumulated texts. -/
theorem groupProns_characterization (ps : List Pronunciation) :
    groupProns ps = (pronKeys ps).map (fun k => ⟨k, specType k ps, specTexts k ps⟩) := by
  have hkeys : (groupProns ps).map (fun g => g.region) = pronKeys ps := groupProns_keys ps
  have hnd : ((groupProns ps).map (fun g => g.region)).Nodup := by
    rw [hkeys]; exact firstDedup_nodup _
  calc groupProns ps
      = ((groupProns ps).map (fun g => g.region)).map
        (fun k => ⟨k, (lookupType k (groupProns ps)).getD "", lookupTexts k (groupProns ps)⟩) :=
      pronmap_reconstruct _ hnd
    _ = (pronKeys ps).map (fun k => ⟨k, specType k ps, specTexts k ps⟩) := by
      rw [hkeys]
      refine List.map_congr_left (fun k hk => ?_)
      rw [groupProns_texts, groupProns_type]
      rfl

theorem pronKeys_ne_nil (ps : List Pronunciation) (h : ps ≠ []) : pronKeys ps ≠ [] := by
  match ps, h with
  | p :: rest, _ =>
    cases ht : effTags p with
    | nil => exact absurd ht (effTags_ne_nil p)
    | cons t ts =>
      have hmem : t ∈ concatMapL effTags (p :: rest) := by
        rw [concatMapL, ht]
        exact List.mem_append_left _ (List.mem_cons_self t ts)
      exact List.ne_nil_of_mem ((mem_firstDedup t _).mpr hmem)

/-- **C5**: for every non-empty pronunciation sequence, the rendered table
has the header row followed by one row per distinct bucket key in
first-encounter order (a tagless pronunciation is bucketed under `"-"`,
a multi-tagged one under each of its tags); each row joins its accumulated
texts with `", "` and shows the type of the first pronunciation assigned
to that bucket. -/
theorem c5_pronunciation_grouping (ps : List Pronunciation) (hne : ps ≠ []) :
    renderPronunciations ps =
      "| Dialect | Pronunciation | Phonetic System | \n|---|---|---|\n" ++
        (concatStr ((pronKeys ps).map (fun k =>
          "| " ++ (k ++ (" | " ++ (joinSep ", " (specTexts k ps) ++
            (" | " ++ (specType k ps ++ " |\n"))))))) ++ "\n\n") := by
  have hpe : ps.isEmpty = false := by
    cases ps with
    | nil => exact absurd rfl hne
    | cons a l => rfl
  have hg : (groupProns ps).isEmpty = false := by
    cases hgp : groupProns ps with
    | nil => exact absurd (by rw [← groupProns_keys, hgp]; rfl) (pronKeys_ne_nil ps hne)
    | cons a l => rfl
  rw [renderPronunciations]
  simp only [hpe, hg, Bool.false_eq_true, if_false]
  rw [groupProns_characterization, List.map_map]
  rfl

/-- Witness for `c5_pronunciation_grouping` at a concrete input. -/
theorem c5_pronunciation_grouping_witness :
    ([⟨"IPA", "fu:", ["UK"]⟩] : List Pronunciation) ≠ [] ∧
    renderPronunciations [⟨"IPA", "fu:", ["UK"]⟩] =
      "| Dialect | Pronunciation | Phonetic System | \n|---|---|---|\n" ++
        (concatStr ((pronKeys [⟨"IPA", "fu:", ["UK"]⟩]).map (fun k =>
          "| " ++ (k ++ (" | " ++ (joinSep ", " (specTexts k [⟨"IPA", "fu:", ["UK"]⟩]) ++
            (" | " ++ (specType k [⟨"IPA", "fu:", ["UK"]⟩] ++ " |\n"))))))) ++ "\n\n") :=
  ⟨by decide, c5_pronunciation_grouping [⟨"IPA", "fu:", ["UK"]⟩] (by decide)⟩

end DictSpec
